import Mathlib

/-!
Verification of the entity-resolution and price-matching engine of the
pokemon-tcg-tracker repository (modules `data_loader.py` and `scraper.py`).

Strings are modelled as `List Char`.  Python's text pipeline is embedded
character by character:

* `htmlUnescape` models `html.unescape` restricted to the named entities
  amp/lt/gt/quot/apos and decimal/hexadecimal numeric character references;
  the full stdlib entity table is irrelevant here — every downstream claim
  only needs that the function is the identity on ampersand-free text.
* `percentDecode` models `urllib.parse.unquote` for single-byte escapes;
  multi-byte UTF-8 sequences decode to the corresponding Latin-1 chars
  (a deviation that no claim touches: all claim inputs are ASCII and the
  idempotence claim only needs identity on percent-free text).
* `asciiFilter`/`toLowerAscii` model `normalize('NFKD', s).encode('ASCII',
  'ignore')` + `.lower()`: NFKD is the identity on ASCII, and characters
  ≥ 0x80 are dropped (accented letters are dropped rather than folded to
  their base letter — again no claim input contains one).
* Python `float` arithmetic in scores and similarities is modelled with `ℚ`;
  every quantity involved is an exact small rational far from any rounding
  boundary.
-/

namespace Tracker

abbrev LC := List Char

/-! ### Character classes (by code point, following the ASCII table) -/

def isPySpace (c : Char) : Bool :=
  c.toNat = 32 || c.toNat = 9 || c.toNat = 10 || c.toNat = 13 ||
  c.toNat = 11 || c.toNat = 12

def isDigitC (c : Char) : Bool :=
  48 ≤ c.toNat && c.toNat ≤ 57

def isLowerAlpha (c : Char) : Bool :=
  97 ≤ c.toNat && c.toNat ≤ 122

def isUpperAlpha (c : Char) : Bool :=
  65 ≤ c.toNat && c.toNat ≤ 90

/-- the character class of the regex `[a-z0-9]` (`_alnum` complement). -/
def isLowerAlnum (c : Char) : Bool :=
  isLowerAlpha c || isDigitC c

/-- the regex word class `\w` restricted to ASCII: `[A-Za-z0-9_]`. -/
def isWordChar (c : Char) : Bool :=
  isLowerAlpha c || isUpperAlpha c || isDigitC c || c.toNat = 95

def isAsciiC (c : Char) : Bool := c.toNat < 128

/-- Python `str.lower` on ASCII letters; other characters unchanged. -/
def toLowerAscii (c : Char) : Char :=
  if isUpperAlpha c then Char.ofNat (c.toNat + 32) else c

def lowerL (l : LC) : LC := l.map toLowerAscii

/-! ### `html.unescape` (restricted entity table, see header) -/

def hexDigitVal (c : Char) : Option Nat :=
  if isDigitC c then some (c.toNat - 48)
  else if 97 ≤ c.toNat && c.toNat ≤ 102 then some (c.toNat - 87)
  else if 65 ≤ c.toNat && c.toNat ≤ 70 then some (c.toNat - 55)
  else none

def decDigits (l : LC) : Nat :=
  l.foldl (fun acc c => acc * 10 + (c.toNat - 48)) 0

def hexDigits (l : LC) : Nat :=
  l.foldl (fun acc c => acc * 16 + ((hexDigitVal c).getD 0)) 0

/-- Try to read one character reference after an `&`.
Returns the decoded character and the number of characters consumed. -/
def parseEntity (cs : LC) : Option (Char × Nat) :=
  match cs with
  | 'a' :: 'm' :: 'p' :: ';' :: _ => some (Char.ofNat 38, 4)
  | 'l' :: 't' :: ';' :: _ => some (Char.ofNat 60, 3)
  | 'g' :: 't' :: ';' :: _ => some (Char.ofNat 62, 3)
  | 'q' :: 'u' :: 'o' :: 't' :: ';' :: _ => some (Char.ofNat 34, 5)
  | 'a' :: 'p' :: 'o' :: 's' :: ';' :: _ => some (Char.ofNat 39, 5)
  | '#' :: 'x' :: rest =>
      let ds := rest.takeWhile (fun c => (hexDigitVal c).isSome)
      if ds = [] then none
      else match rest.drop ds.length with
           | ';' :: _ => some (Char.ofNat (hexDigits ds % 1114112), ds.length + 3)
           | _ => none
  | '#' :: rest =>
      let ds := rest.takeWhile isDigitC
      if ds = [] then none
      else match rest.drop ds.length with
           | ';' :: _ => some (Char.ofNat (decDigits ds % 1114112), ds.length + 2)
           | _ => none
  | _ => none

/-- Fuel-driven scan; `fuel = l.length` always suffices because each step
consumes at least one input character. -/
def huAux : Nat → LC → LC
  | 0, l => l
  | _ + 1, [] => []
  | fuel + 1, c :: cs =>
      if c.toNat = 38 then
        match parseEntity cs with
        | some (ch, n) => ch :: huAux fuel (cs.drop n)
        | none => c :: huAux fuel cs
      else c :: huAux fuel cs

def htmlUnescape (l : LC) : LC := huAux l.length l

/-! ### `urllib.parse.unquote` (single-byte model, see header) -/

/-- Fuel-driven scan; `fuel = l.length` always suffices because each step
consumes at least one input character. -/
def pdAux : Nat → LC → LC
  | 0, l => l
  | _ + 1, [] => []
  | fuel + 1, c :: cs =>
      if c.toNat = 37 then
        match cs with
        | h1 :: h2 :: rest =>
            match hexDigitVal h1, hexDigitVal h2 with
            | some a, some b => Char.ofNat (a * 16 + b) :: pdAux fuel rest
            | _, _ => c :: pdAux fuel cs
        | _ => c :: pdAux fuel cs
      else c :: pdAux fuel cs

def percentDecode (l : LC) : LC := pdAux l.length l

/-- `_unescape_decode`: decode HTML entities then percent-encoding. -/
def unescapeDecode (l : LC) : LC := percentDecode (htmlUnescape l)

/-! ### `_ascii_lower` and `_tokenize` -/

def pyStrip (l : LC) : LC :=
  ((l.dropWhile isPySpace).reverse.dropWhile isPySpace).reverse

/-- `_ascii_lower`: unescape, NFKD-fold to ASCII (drop the rest), lower, strip. -/
def asciiLower (l : LC) : LC :=
  pyStrip (lowerL ((unescapeDecode l).filter isAsciiC))

/-- the substitution `re.sub(r'[^a-z0-9]+', ' ', s)`:
each maximal run of non-alphanumerics becomes a single space.
Fuel-driven so that the kernel can evaluate it; `fuel = l.length`
always suffices because each step consumes at least one character. -/
def cnaAux : Nat → LC → LC
  | 0, l => l
  | _ + 1, [] => []
  | fuel + 1, c :: cs =>
      if isLowerAlnum c then c :: cnaAux fuel cs
      else ' ' :: cnaAux fuel (cs.dropWhile (fun d => !isLowerAlnum d))

def collapseNA (l : LC) : LC := cnaAux l.length l

/-- the substitution `re.sub(r'\s+', ' ', s)` (fuel-driven likewise). -/
def cwsAux : Nat → LC → LC
  | 0, l => l
  | _ + 1, [] => []
  | fuel + 1, c :: cs =>
      if isPySpace c then ' ' :: cwsAux fuel (cs.dropWhile isPySpace)
      else c :: cwsAux fuel cs

def collapseWS (l : LC) : LC := cwsAux l.length l

/-- `_tokenize`: ascii-lower, collapse non-alphanumeric runs to single
spaces, collapse whitespace, strip. -/
def tokenize (l : LC) : LC :=
  pyStrip (collapseWS (collapseNA (asciiLower l)))

/-- Python `s.split()`: maximal nonempty runs separated by whitespace
(fuel-driven likewise). -/
def swsAux : Nat → LC → List LC
  | 0, _ => []
  | _ + 1, [] => []
  | fuel + 1, c :: cs =>
      if isPySpace c then swsAux fuel (cs.dropWhile isPySpace)
      else (c :: cs.takeWhile (fun d => !isPySpace d)) ::
           swsAux fuel (cs.dropWhile (fun d => !isPySpace d))

def splitWS (l : LC) : List LC := swsAux l.length l

/-- Python `' '.join(ws)`. -/
def joinSpace : List LC → LC
  | [] => []
  | [w] => w
  | w :: ws => w ++ ' ' :: joinSpace ws

def dedupKeep : List LC → List LC
  | [] => []
  | w :: ws => w :: (dedupKeep ws).filter (fun v => v ≠ w)

/-- duplicate-free token list of a string, first occurrence kept
(models a Python `set` built from `s.split()`; set iteration order is
unspecified in Python — all uses below are order-independent). -/
def tokenSet (l : LC) : List LC :=
  dedupKeep (splitWS l)

/-! ### Variant stripper (`_VARIANT_WORDS`, `_strip_variant_tags`) -/

/-- `_VARIANT_WORDS`, in source order (Python iterates this set in an
unspecified order; every use below is order-independent for the inputs
considered). -/
def variantWords : List LC :=
  ["reverse".data, "rev".data, "reverse holo".data, "rev holo".data,
   "reverse-holo".data, "holo".data, "holofoil".data, "foil".data,
   "rainbow foil".data, "galaxy".data, "cosmos".data, "non-holo".data,
   "non holo".data, "unlimited".data, "first edition".data,
   "1st edition".data, "1st".data, "shadowless".data, "staff".data,
   "prerelease".data, "pre-release".data, "promo".data, "jumbo".data,
   "oversize".data, "shattered glass".data, "cracked ice".data,
   "e-reader".data, "mini".data, "gold star".data, "gold-star".data,
   "goldstar".data]

/-- Python `needle in haystack` on strings. -/
def isSubstr : LC → LC → Bool
  | p, [] => p.isEmpty
  | p, c :: cs => p.isPrefixOf (c :: cs) || isSubstr p cs

def containsVariantWord (low : LC) : Bool :=
  variantWords.any (fun w => isSubstr w low)

/-- `_row_is_variant`: bracketed content or a variant word in the
lowercased title. -/
def rowIsVariant (name : LC) : Bool :=
  let low := lowerL name
  (low.contains '[' && low.contains ']') || containsVariantWord low

/-- The interior of a non-greedy `\[(.*?)\]` match starting right after a
`[`: the characters up to the first `]`, provided no newline intervenes
(`.` does not match a newline). -/
def bracketInside (cs : LC) : Option LC :=
  let inside := cs.takeWhile (fun c => c.toNat ≠ 93 && c.toNat ≠ 10)
  match cs.drop inside.length with
  | c :: _ => if c.toNat = 93 then some inside else none
  | [] => none

/-- the substitution `re.sub(r'\[(.*?)\]', repl, s)` where `repl` deletes
the match when its interior contains a variant word and otherwise keeps
it verbatim (scanning resumes after the kept match, as `re.sub` does).
Fuel-driven; `fuel = l.length` suffices. -/
def sbAux : Nat → LC → LC
  | 0, l => l
  | _ + 1, [] => []
  | fuel + 1, c :: cs =>
      if c.toNat = 91 then
        match bracketInside cs with
        | some inside =>
            let rest := cs.drop (inside.length + 1)
            if containsVariantWord (lowerL inside) then sbAux fuel rest
            else c :: (inside ++ Char.ofNat 93 :: sbAux fuel rest)
        | none => c :: sbAux fuel cs
      else c :: sbAux fuel cs

def stripBrackets (l : LC) : LC := sbAux l.length l

/-- Is `c` one of the dash alternatives `[-–—]` of the loose-word regex? -/
def isDashC (c : Char) : Bool :=
  c.toNat = 45 || c.toNat = 8211 || c.toNat = 8212

/-- Case-insensitive literal match of the (lowercase) vocabulary word `w`
against the front of `s` (regex `re.escape(w)` with `re.IGNORECASE`). -/
def ciPrefix : LC → LC → Bool
  | [], _ => true
  | _ :: _, [] => false
  | w :: ws, c :: cs => toLowerAscii c = w && ciPrefix ws cs

/-- `(?:$|\b)` right after the matched word (which ends in a word
character): end of input or a non-word character next. -/
def boundaryAfter : LC → Bool
  | [] => true
  | c :: _ => !isWordChar c

/-- Try the pattern `(?:^|\s|[-–—])w(?:$|\b)` at the current position of
`s`; `atStart` tells whether this position is the start of the string.
Returns the number of characters consumed by a successful match. -/
def tryMatchWord (w : LC) (atStart : Bool) (s : LC) : Option Nat :=
  if w.isEmpty then none
  else if atStart && ciPrefix w s && boundaryAfter (s.drop w.length) then
    some w.length
  else
    match s with
    | c :: rest =>
        if (isPySpace c || isDashC c) && ciPrefix w rest &&
           boundaryAfter (rest.drop w.length) then
          some (w.length + 1)
        else none
    | [] => none

/-- One `re.sub('(?:^|\s|[-–—])w(?:$|\b)', ' ', s, IGNORECASE)` pass:
left-to-right, non-overlapping, each match replaced by a single space.
Fuel-driven; `fuel = s.length` suffices (every match consumes at least
one character since `w` is nonempty). -/
def svwAux (w : LC) : Nat → Bool → LC → LC
  | 0, _, s => s
  | _ + 1, _, [] => []
  | fuel + 1, atStart, c :: cs =>
      match tryMatchWord w atStart (c :: cs) with
      | some n => ' ' :: svwAux w fuel false ((c :: cs).drop n)
      | none => c :: svwAux w fuel false cs

def subVariantWord (s w : LC) : LC := svwAux w s.length true s

/-- `_strip_variant_tags`: drop variant-tagged bracketed segments, drop
loose variant words, collapse whitespace, strip. -/
def stripVariantTags (s : LC) : LC :=
  if s.isEmpty then s
  else pyStrip (collapseWS (variantWords.foldl subVariantWord (stripBrackets s)))

/-! ### Name / number / set normalizers -/

/-- `_name_norm`: tokenize with variant descriptors stripped. -/
def nameNorm (s : LC) : LC := tokenize (stripVariantTags s)

/-- `_name_norm_raw`: tokenize the raw name. -/
def nameNormRaw (s : LC) : LC := tokenize s

/-- `_normalize_number`: strip+lower, part before the first `/`, strip
leading `#`. -/
def normalizeNumber (s : LC) : LC :=
  ((lowerL (pyStrip s)).takeWhile (fun c => c.toNat ≠ 47)).dropWhile
    (fun c => c.toNat = 35)

/-- `_digits_only`. -/
def digitsOnly (l : LC) : LC := l.filter isDigitC

def removeTokens (bad : List LC) (ts : List LC) : List LC :=
  ts.filter (fun t => !(bad.any (fun b => b = t)))

/-- `re.sub(r'\bexpedition base(?: set)?\b', 'expedition', s)` at the
token level (the string is already tokenized when this regex runs).
Fuel-driven; `fuel = ts.length` suffices. -/
def expFixAux : Nat → List LC → List LC
  | 0, ts => ts
  | _ + 1, [] => []
  | fuel + 1, t :: ts =>
      if t = "expedition".data then
        match ts with
        | u :: rest =>
            if u = "base".data then
              match rest with
              | v :: rest2 =>
                  if v = "set".data then "expedition".data :: expFixAux fuel rest2
                  else "expedition".data :: expFixAux fuel rest
              | [] => ["expedition".data]
            else t :: expFixAux fuel ts
        | [] => [t]
      else t :: expFixAux fuel ts

def expeditionFix (ts : List LC) : List LC := expFixAux ts.length ts

/-- `re.sub(r'\bpokemon expedition\b', 'expedition', s)` at the token
level (fuel-driven likewise). -/
def pokExpAux : Nat → List LC → List LC
  | 0, ts => ts
  | _ + 1, [] => []
  | fuel + 1, t :: ts =>
      if t = "pokemon".data then
        match ts with
        | u :: rest =>
            if u = "expedition".data then "expedition".data :: pokExpAux fuel rest
            else t :: pokExpAux fuel ts
        | [] => [t]
      else t :: pokExpAux fuel ts

def pokExpFix (ts : List LC) : List LC := pokExpAux ts.length ts

/-- `re.sub(r'\bX\s*(?:&|and)?\s*Y\b', '', s)` at the token level: drops
the token pair `[x, y]` or the triple `[x, and, y]` (`&` cannot survive
tokenization).  Fuel-driven likewise. -/
def remSerAux (x y : LC) : Nat → List LC → List LC
  | 0, ts => ts
  | _ + 1, [] => []
  | fuel + 1, t :: ts =>
      if t = x then
        match ts with
        | u :: rest =>
            if u = y then remSerAux x y fuel rest
            else if u = "and".data then
              match rest with
              | v :: rest2 =>
                  if v = y then remSerAux x y fuel rest2
                  else t :: remSerAux x y fuel ts
              | [] => t :: remSerAux x y fuel ts
            else t :: remSerAux x y fuel ts
        | [] => [t]
      else t :: remSerAux x y fuel ts

def removeSeries (x y : LC) (ts : List LC) : List LC :=
  remSerAux x y ts.length ts

def seriesPairs : List (LC × LC) :=
  [("diamond".data, "pearl".data), ("black".data, "white".data),
   ("sun".data, "moon".data), ("sword".data, "shield".data),
   ("scarlet".data, "violet".data), ("heartgold".data, "soulsilver".data)]

/-- `_normalize_set`, modelled at the token level: every regex in the
source runs on an already-tokenized string (single spaces, lowercase
alphanumeric words), where `\b`-delimited substitutions act exactly on
whole tokens, and the final whitespace collapse/strip is the join. -/
def normalizeSet (text : LC) : LC :=
  let ts := splitWS (tokenize (unescapeDecode text))
  let ts := expeditionFix ts
  let ts := pokExpFix ts
  let ts := removeTokens ["1st".data, "first".data, "edition".data,
      "shadowless".data] ts
  let ts := removeTokens ["pokemon".data, "tcg".data, "the".data,
      "trading".data, "card".data, "game".data, "series".data] ts
  let ts := seriesPairs.foldl (fun acc p => removeSeries p.1 p.2 acc) ts
  let ts := removeTokens ["dp".data, "bw".data, "xy".data, "sm".data,
      "swsh".data, "sv".data, "hgss".data] ts
  let ts := removeTokens ["wizards".data, "wotc".data] ts
  let ts := ts.filter (fun t => t ≠ "set".data)
  let ts := ts.map (fun t => if t = "promos".data then "promo".data else t)
  joinSpace ts

/-! ### Fuzzy set matcher (`_token_set`, `_set_similarity`,
`difflib.SequenceMatcher`) -/

/-- `len(ta & tb)` for the deduplicated token lists. -/
def interCount (ta tb : List LC) : Nat :=
  (ta.filter (fun t => tb.contains t)).length

/-- `len(ta | tb)` for the deduplicated token lists. -/
def unionCount (ta tb : List LC) : Nat :=
  ta.length + (tb.filter (fun t => !ta.contains t)).length

/-- the Jaccard part of `_set_similarity` (0 when either side has no
tokens). -/
def jaccard (a b : LC) : ℚ :=
  let ta := tokenSet a
  let tb := tokenSet b
  if ta.isEmpty || tb.isEmpty then 0
  else (interCount ta tb : ℚ) / (max 1 (unionCount ta tb) : ℚ)

/-- positions of `c` in `b`, ascending (`SequenceMatcher`'s `b2j`; no
junk: `isjunk` is `None` and `autojunk` only fires for `len(b) ≥ 200`,
far beyond any set key here). -/
def positionsOf (b : LC) (c : Char) : List Nat :=
  (b.enum.filter (fun p => p.2 = c)).map (fun p => p.1)

def lookupD (l : List (Nat × Nat)) (k d : Nat) : Nat :=
  match l.find? (fun p => p.1 = k) with
  | some p => p.2
  | none => d

/-- `SequenceMatcher.find_longest_match(alo, ahi, blo, bhi)`: longest
matching block, ties broken towards the smallest `i` then the smallest
`j` (the strict `>` update keeps the first maximum found). -/
def flm (a b : LC) (alo ahi blo bhi : Nat) : Nat × Nat × Nat :=
  let step := fun (st : List (Nat × Nat) × (Nat × Nat × Nat)) (i : Nat) =>
    let inner := fun (st2 : List (Nat × Nat) × (Nat × Nat × Nat)) (j : Nat) =>
      let (newj2len, best) := st2
      let k := (if j = 0 then 0 else lookupD st.1 (j - 1) 0) + 1
      let best' := if k > best.2.2 then (i + 1 - k, j + 1 - k, k) else best
      ((j, k) :: newj2len, best')
    let idxs := (positionsOf b ((a.get? i).getD ' ')).filter
      (fun j => blo ≤ j && j < bhi)
    let (nj, best') := idxs.foldl inner ([], st.2)
    (nj, best')
  ((List.range' alo (ahi - alo)).foldl step ([], (alo, blo, 0))).2

/-- Total size of all matching blocks of
`SequenceMatcher.get_matching_blocks` on the given range (the queue
recursion of the source, written as a fueled recursion over the two
half-ranges; sorting and merging adjacent blocks do not change the
total). `fuel = a.length + b.length + 1` always suffices. -/
def mtAux (a b : LC) : Nat → Nat → Nat → Nat → Nat → Nat
  | 0, _, _, _, _ => 0
  | fuel + 1, alo, ahi, blo, bhi =>
      if alo < ahi && blo < bhi then
        match flm a b alo ahi blo bhi with
        | (i, j, k) =>
            if k = 0 then 0
            else k + mtAux a b fuel alo i blo j + mtAux a b fuel (i + k) ahi (j + k) bhi
      else 0

def matchingTotal (a b : LC) : Nat :=
  mtAux a b (a.length + b.length + 1) 0 a.length 0 b.length

/-- `SequenceMatcher.ratio()`: `2 * M / T`, and `1.0` when both strings
are empty. -/
def seqRatio (a b : LC) : ℚ :=
  let total := a.length + b.length
  if total = 0 then 1
  else 2 * (matchingTotal a b : ℚ) / (total : ℚ)

/-- `_set_similarity`: `0.6 * jaccard + 0.4 * ratio` (floats modelled by
exact rationals). -/
def setSimilarity (a b : LC) : ℚ :=
  3 / 5 * jaccard a b + 2 / 5 * seqRatio a b

/-- the acceptance threshold `0.72` of the fuzzy fallback. -/
def fuzzyThreshold : ℚ := 18 / 25

/-! ### Price index (`_price_map`, `_price_index`, `_by_name_num`,
`_insert_price_key`, `_load_price_data`) -/

/-- one price dict: `market`/`psa9`/`psa10`/`currency`/`source`, plus the
optional internal `'_score'` key (present exactly on the copies stored in
the price map). -/
structure PriceRec where
  market : Option ℚ
  psa9 : Option ℚ
  psa10 : Option ℚ
  currency : LC
  source : LC
  scoreField : Option ℚ
deriving DecidableEq

abbrev PKey := LC × LC × LC
abbrev NNKey := LC × LC

/-- Python dict lookup on an association-list model. -/
def lookupKV {α β : Type} [DecidableEq α] : List (α × β) → α → Option β
  | [], _ => none
  | (k', v) :: rest, k => if k' = k then some v else lookupKV rest k

/-- Python dict assignment `d[k] = v` on an association-list model. -/
def setKV {α β : Type} [DecidableEq α] : List (α × β) → α → β → List (α × β)
  | [], k, v => [(k, v)]
  | (k', v') :: rest, k, v =>
      if k' = k then (k, v) :: rest else (k', v') :: setKV rest k v

structure PriceState where
  priceMap : List (PKey × PriceRec)
  priceIndex : List NNKey
  byNameNum : List (NNKey × List (LC × PriceRec))
deriving DecidableEq

def emptyPriceState : PriceState := ⟨[], [], []⟩

/-- `_insert_price_key`: write a copy of the record carrying `_score`,
but only when the key is absent or the new score beats the stored
`'_score'` (default −1) strictly. -/
def insertPriceKey (m : List (PKey × PriceRec)) (key : PKey)
    (obj : PriceRec) (score : ℚ) : List (PKey × PriceRec) :=
  match lookupKV m key with
  | none => setKV m key { obj with scoreField := some score }
  | some st =>
      if score > st.scoreField.getD (-1) then
        setKV m key { obj with scoreField := some score }
      else m

/-- `_price_index.add` (set semantics: add if absent). -/
def addIndex (idx : List NNKey) (k : NNKey) : List NNKey :=
  if idx.any (fun p => p = k) then idx else idx ++ [k]

/-- `_by_name_num.setdefault(key, []).append(v)`. -/
def appendMM (mm : List (NNKey × List (LC × PriceRec))) (k : NNKey)
    (v : LC × PriceRec) : List (NNKey × List (LC × PriceRec)) :=
  match lookupKV mm k with
  | none => setKV mm k [v]
  | some l => setKV mm k (l ++ [v])

/-- one already-column-resolved source row: the stripped `name`/`set`/
`number` cells and the `_parse_price`d price cells. -/
structure SourceRow where
  cardName : LC
  setName : LC
  numberRaw : LC
  rawPrice : Option ℚ
  psa9Price : Option ℚ
  psa10Price : Option ℚ
deriving DecidableEq

/-- `set_name.split(" ", 1)[1].strip()`. -/
def afterFirstSpace (s : LC) : LC :=
  pyStrip ((s.dropWhile (fun c => c.toNat ≠ 32)).drop 1)

/-- `card_name.rsplit("#", 1)`: the parts before and after the last `#`. -/
def rsplitHash (s : LC) : LC × LC :=
  let post := (s.reverse.takeWhile (fun c => c.toNat ≠ 35)).reverse
  (s.take (s.length - post.length - 1), post)

/-- the `richness` of a row: weights 1/2/3 for populated market/psa9/psa10. -/
def rowRichness (row : SourceRow) : ℚ :=
  (if row.rawPrice.isSome then 1 else 0) +
  (if row.psa9Price.isSome then 2 else 0) +
  (if row.psa10Price.isSome then 3 else 0)

/-- the `score` of a row: richness plus 2 for a non-variant title
(`cardName` is the title after decoding and `#`-splitting). -/
def rowQualityScore (cardName : LC) (row : SourceRow) : ℚ :=
  rowRichness row + (if rowIsVariant cardName then 0 else 2)

/-- the per-row body of `_load_price_data`'s loading loop. -/
def processRow (currency : LC) (st : PriceState) (row : SourceRow) : PriceState :=
  let cardName := unescapeDecode row.cardName
  let setName := unescapeDecode row.setName
  let setName :=
    if "pokemon ".data.isPrefixOf (lowerL setName) then afterFirstSpace setName
    else setName
  let hashSplit :=
    if row.numberRaw.isEmpty && cardName.contains '#' then
      let p := rsplitHash cardName
      (pyStrip p.1, pyStrip p.2)
    else (cardName, row.numberRaw)
  let cardName := hashSplit.1
  let numberRaw := hashSplit.2
  if cardName.isEmpty || setName.isEmpty || numberRaw.isEmpty then st
  else
    let nameBase := nameNorm cardName
    let nameRaw := nameNormRaw cardName
    let setN := normalizeSet setName
    let numN := normalizeNumber numberRaw
    let obj : PriceRec :=
      { market := row.rawPrice, psa9 := row.psa9Price, psa10 := row.psa10Price,
        currency := currency, source := "excel".data, scoreField := none }
    let score := rowQualityScore cardName row
    let nmList := if nameBase = nameRaw then [nameBase] else [nameBase, nameRaw]
    nmList.foldl (fun st nm =>
      let idx := addIndex st.priceIndex (nm, numN)
      let m1 := insertPriceKey st.priceMap (nm, setN, numN) obj score
      let mm := appendMM st.byNameNum (nm, numN) (setN, obj)
      let nd := digitsOnly numN
      let m2 :=
        if !nd.isEmpty && nd ≠ numN then
          insertPriceKey m1 (nm, setN, nd) obj (score - 1/10)
        else m1
      ⟨m2, idx, mm⟩) st

/-- the loading loop of `_load_price_data` over the parsed rows. -/
def loadRows (currency : LC) (rows : List SourceRow) : PriceState :=
  rows.foldl (processRow currency) emptyPriceState

/-! ### Price lookup (`get_price_override`, `get_price_override_ex`) -/

def firstHit (m : List (PKey × PriceRec)) : List PKey → Option PriceRec
  | [] => none
  | k :: ks =>
      match lookupKV m k with
      | some v => some v
      | none => firstHit m ks

/-- the candidate `(nm, set_norm, nn)` keys of the exact phase, in the
source's tuple iteration order, empty number keys skipped. -/
def exactKeys (nameN rawN setN numN : LC) : List PKey :=
  ([nameN, rawN].map (fun nm =>
    (([numN, digitsOnly numN].filter (fun nn => !nn.isEmpty)).map
      (fun nn => (nm, setN, nn))))).flatten

/-- the `nm_candidates` set `{name_norm, raw}` as a duplicate-free list
(Python set iteration order is unspecified; every property proved below
is order-independent). -/
def nmCandidates (nameN rawN : LC) : List LC :=
  if nameN = rawN then [nameN] else [nameN, rawN]

/-- the `nn_candidates` set, non-empty keys only. -/
def nnCandidates (numN : LC) : List LC :=
  (if numN = digitsOnly numN then [numN] else [numN, digitsOnly numN]).filter
    (fun nn => !nn.isEmpty)

/-- the flattened fuzzy-phase candidate list
(`_by_name_num.get((nm, nn), [])` over both candidate sets). -/
def fuzzyCandidates (st : PriceState) (nameN rawN numN : LC) :
    List (LC × PriceRec) :=
  ((nmCandidates nameN rawN).map (fun nm =>
    ((nnCandidates numN).map (fun nn =>
      (lookupKV st.byNameNum (nm, nn)).getD [])).flatten)).flatten

/-- the `best`/`best_score` tracking fold (strict `>`, so the first
maximum encountered wins). -/
def bestFuzzy (setN : LC) (cands : List (LC × PriceRec)) :
    Option PriceRec × ℚ :=
  cands.foldl (fun acc p =>
    let score := setSimilarity setN p.1
    if score > acc.2 then (some p.2, score) else acc)
    ((none : Option PriceRec), (0 : ℚ))

/-- `get_price_override`: exact phase over all name/number variants, then
fuzzy set matching restricted to rows sharing a `(name, number)` pair,
accepted only at or above the 0.72 threshold. -/
def getPriceOverride (st : PriceState) (name set_name number : LC) :
    Option PriceRec :=
  let nameN := nameNorm name
  let rawN := nameNormRaw name
  let setN := normalizeSet set_name
  let numN := normalizeNumber number
  match firstHit st.priceMap (exactKeys nameN rawN setN numN) with
  | some v => some v
  | none =>
      let best := bestFuzzy setN (fuzzyCandidates st nameN rawN numN)
      match best.1 with
      | some b => if best.2 ≥ fuzzyThreshold then some b else none
      | none => none

inductive Reason where
  | found
  | unmatchedSet
  | absentInCsv
deriving DecidableEq

/-- `any(((nm, nn) in _price_index) ...)` over the name/number variant
sets. -/
def existsAnyPair (st : PriceState) (name number : LC) : Bool :=
  let nmVars := nmCandidates (nameNorm name) (nameNormRaw name)
  let nnVars := nnCandidates (normalizeNumber number)
  nmVars.any (fun nm => nnVars.any (fun nn =>
    st.priceIndex.any (fun p => p = (nm, nn))))

/-- `get_price_override_ex`. -/
def getPriceOverrideEx (st : PriceState) (name set_name number : LC) :
    Option PriceRec × Reason :=
  match getPriceOverride st name set_name number with
  | some v => (some v, Reason.found)
  | none =>
      if existsAnyPair st name number then (none, Reason.unmatchedSet)
      else (none, Reason.absentInCsv)

/-! ### Catalog cards, search (`search_local_cards`) and related cards -/

/-- one `_card_data` entry, with the normalized fields that `load_data`
caches on it. -/
structure CatalogCard where
  id : LC
  hasSet : Bool
  setId : Option LC
  rarity : Option LC
  normName : LC
  normSet : LC
  numDigits : LC
deriving DecidableEq

/-- `re.sub(r'\d+', ' ', query)`: each digit run becomes one space
(fuel-driven; `fuel = l.length` suffices). -/
def dtsAux : Nat → LC → LC
  | 0, l => l
  | _ + 1, [] => []
  | fuel + 1, c :: cs =>
      if isDigitC c then ' ' :: dtsAux fuel (cs.dropWhile isDigitC)
      else c :: dtsAux fuel cs

def digitRunsToSpace (l : LC) : LC := dtsAux l.length l

/-- `"".join(re.findall(r'\d+', query))`: the digit characters in order. -/
def queryNumDigits (q : LC) : LC := q.filter isDigitC

/-- `set(t for t in _tokenize(re.sub(r'\d+', ' ', query)).split() if t)`. -/
def queryTokens (q : LC) : List LC :=
  dedupKeep (splitWS (tokenize (digitRunsToSpace q)))

/-- the card's name-token set. -/
def cardNameTokens (c : CatalogCard) : List LC := dedupKeep (splitWS c.normName)

/-- the card's set-token set. -/
def cardSetTokens (c : CatalogCard) : List LC := dedupKeep (splitWS c.normSet)

/-- `card_all_text_tokens`: union of name and set tokens. -/
def cardAllTokens (c : CatalogCard) : List LC :=
  dedupKeep (cardNameTokens c ++ cardSetTokens c)

/-- `text_match_count`: how many query tokens substring-match some card
token. -/
def textMatchCountOf (stoks : List LC) (c : CatalogCard) : Nat :=
  (stoks.filter (fun t => (cardAllTokens c).any (fun ct => isSubstr t ct))).length

/-- the relevance score of one card against the parsed query: partial
text matches, name/set intersections, exact-number bonus, unmatched-name
penalty. -/
def scoreOf (stoks : List LC) (snd : LC) (c : CatalogCard) : ℚ :=
  let nameT := cardNameTokens c
  let setT := cardSetTokens c
  let tmc := textMatchCountOf stoks c
  let nInter := (stoks.filter (fun t => nameT.any (fun u => u = t))).length
  let sInter := (stoks.filter (fun t => setT.any (fun u => u = t))).length
  let unmatched := (nameT.filter (fun t => !stoks.any (fun u => u = t))).length
  50 * tmc + 30 * nInter + 20 * sInter +
    (if !snd.isEmpty && c.numDigits = snd then 50 else 0) - 5 * unmatched

/-- the rarity tie-breaker chain (`rare` 1, `holo` 2, `ultra` 3, last
matching test wins). -/
def rarityTie (c : CatalogCard) : Nat :=
  let low := lowerL (c.rarity.getD [])
  let t1 := if isSubstr "rare".data low then 1 else 0
  let t2 := if isSubstr "holo".data low then 2 else t1
  if isSubstr "ultra".data low then 3 else t2

/-- the per-card scoring body of `search_local_cards`; `none` models
`continue` (hard filter or non-positive score). -/
def scoreEntry (stoks : List LC) (snd : LC) (c : CatalogCard) :
    Option (ℚ × Nat × CatalogCard) :=
  if !stoks.isEmpty && textMatchCountOf stoks c = 0 then none
  else if scoreOf stoks snd c > 0 then
    some (scoreOf stoks snd c, rarityTie c, c)
  else none

/-- is entry `p` strictly greater than `q` in the Python sort key
`(score, tie_breaker)` (lexicographic)? -/
def entryGT (p q : ℚ × Nat × CatalogCard) : Bool :=
  decide (q.1 < p.1) || (decide (p.1 = q.1) && decide (q.2.1 < p.2.1))

/-- stable descending insertion: an element is placed after every
strictly greater earlier element and before equal ones coming later,
exactly the order `list.sort(key=..., reverse=True)` produces. -/
def insertDesc (x : ℚ × Nat × CatalogCard) :
    List (ℚ × Nat × CatalogCard) → List (ℚ × Nat × CatalogCard)
  | [] => [x]
  | y :: ys => if entryGT y x then y :: insertDesc x ys else x :: y :: ys

def sortDesc : List (ℚ × Nat × CatalogCard) → List (ℚ × Nat × CatalogCard)
  | [] => []
  | x :: xs => insertDesc x (sortDesc xs)

/-- `search_local_cards(query, limit)` over the in-memory card list. -/
def searchLocalCards (cards : List CatalogCard) (q : LC) (limit : Nat) :
    List CatalogCard :=
  if q.isEmpty then []
  else
    let snd := queryNumDigits q
    let stoks := queryTokens q
    if stoks.isEmpty && snd.isEmpty then []
    else
      let results := cards.filterMap (scoreEntry stoks snd)
      ((sortDesc results).take limit).map (fun e => e.2.2)

/-- Python truthiness of an optional string argument. -/
def truthyOpt : Option LC → Bool
  | none => false
  | some s => !s.isEmpty

/-- `get_local_related_cards`; `random.sample` is modelled by an
arbitrary `sampler` parameter, which the early-return path never
consults. -/
def getLocalRelatedCards (sampler : List CatalogCard → Nat → List CatalogCard)
    (cards : List CatalogCard) (set_id rarity current_card_id : Option LC)
    (count : Nat) : List CatalogCard :=
  if !(truthyOpt set_id && truthyOpt rarity && truthyOpt current_card_id) then []
  else
    let related := cards.filter (fun c =>
      c.hasSet && decide (c.setId = set_id) && decide (c.rarity = rarity) &&
      decide (some c.id ≠ current_card_id))
    if related.length > count then sampler related count else related

/-! ### Product deduplication (`scraper._load_items_from_file`) -/

/-- one normalized product row as `_normalize_row` returns it, dedup key
fields included. -/
structure ProdItem where
  title : LC
  imageUrl : LC
  price : LC
  priceFloat : Option ℚ
  url : LC
  source : LC
  kTitle : LC
  kUrl : LC
deriving DecidableEq

/-- a product row after `it.pop("_k_title")`/`it.pop("_k_url")`. -/
structure PubItem where
  title : LC
  imageUrl : LC
  price : LC
  priceFloat : Option ℚ
  url : LC
  source : LC
deriving DecidableEq

def popKeys (it : ProdItem) : PubItem :=
  ⟨it.title, it.imageUrl, it.price, it.priceFloat, it.url, it.source⟩

/-- the composite dedup key `(normalized title, canonical URL, price
string)`. -/
def dedupKey (it : ProdItem) : LC × LC × LC := (it.kTitle, it.kUrl, it.price)

/-- the `DEDUP` loop of `_load_items_from_file`. -/
def dedupAux (seen : List (LC × LC × LC)) : List ProdItem → List PubItem
  | [] => []
  | it :: rest =>
      if seen.any (fun k => k = dedupKey it) then dedupAux seen rest
      else popKeys it :: dedupAux (dedupKey it :: seen) rest

def deduplicate (items : List ProdItem) : List PubItem := dedupAux [] items

/-! ### Auxiliary notions used by the theorems -/

/-- character class of normalizer output: lowercase alphanumeric or a
plain space. -/
def okChar (c : Char) : Bool := isLowerAlnum c || c == ' '

/-- the shape invariant of `_tokenize` output before the final strip:
every character lowercase alphanumeric or a space, no two adjacent
spaces. -/
def OkRun (l : LC) : Prop :=
  (∀ c ∈ l, okChar c = true) ∧ l.Chain' (fun a b => ¬(a = ' ' ∧ b = ' '))

/-- `OkRun` plus no leading and no trailing space: the shape of finished
`_tokenize` output. -/
def NormShape (l : LC) : Prop :=
  OkRun l ∧ l.head? ≠ some ' ' ∧ l.getLast? ≠ some ' '

/-- repeated `_insert_price_key` at one key, starting from an empty map
(exercises the conflict-resolution invariant). -/
def insertAll (k : PKey) (pairs : List (PriceRec × ℚ)) :
    List (PKey × PriceRec) :=
  pairs.foldl (fun m p => insertPriceKey m k p.1 p.2) []

/-- the expected winner under strict-improvement replacement: the
first row attaining the maximum score. -/
def fmFrom (acc : Option (PriceRec × ℚ)) (l : List (PriceRec × ℚ)) :
    Option (PriceRec × ℚ) :=
  l.foldl (fun acc p =>
    match acc with
    | none => some p
    | some q => if p.2 > q.2 then some p else acc) acc

def firstMaxScore (l : List (PriceRec × ℚ)) : Option (PriceRec × ℚ) :=
  fmFrom none l

/-- attach the `_score` key, as `_insert_price_key` stores it. -/
def withScore (p : PriceRec × ℚ) : PriceRec :=
  { p.1 with scoreField := some p.2 }

/-! ### Concrete data used by witnesses and counterexamples -/

/-- spec §8's row A: non-variant, only market populated. -/
def rowA : SourceRow :=
  ⟨"Pikachu".data, "Base Set".data, "58/102".data, some 10, none, none⟩

/-- spec §8's row B: variant-tagged, psa9 and psa10 populated. -/
def rowB : SourceRow :=
  ⟨"Pikachu [Reverse Holo]".data, "Base Set".data, "58/102".data,
   none, some 5, some 8⟩

/-- row B's price record as stored by the index (score 5). -/
def recBWin : PriceRec :=
  ⟨none, some 5, some 8, "EUR".data, "excel".data, some 5⟩

/-- a record sitting in a hand-built price map (score 2). -/
def recExact : PriceRec :=
  ⟨some 1, none, none, "EUR".data, "excel".data, some 2⟩

/-- a state holding one exact entry for (a, b, 1). -/
def stExact : PriceState :=
  ⟨[(("a".data, "b".data, "1".data), recExact)], [], []⟩

/-- a state with an empty price map but a `(name, number)` presence pair
for (a, 1). -/
def stIndexOnly : PriceState :=
  ⟨[], [("a".data, "1".data)], []⟩

/-- one catalog card whose only tokens are `charizard` / `base`. -/
def cardChar : CatalogCard :=
  ⟨"base1-4".data, true, some "base1".data, some "Rare Holo".data,
   "charizard".data, "base".data, "4".data⟩

/-- two product rows identical in title and URL keys, different price
strings, plus one exact duplicate of the first. -/
def itemP1 : ProdItem :=
  ⟨"Booster Box".data, "img1".data, "€10,00".data, some 10,
   "https://x.gr/a".data, "skroutz".data, "booster box".data, "x.gr/a".data⟩

def itemP2 : ProdItem :=
  ⟨"Booster Box".data, "img2".data, "€12,00".data, some 12,
   "https://x.gr/a".data, "skroutz".data, "booster box".data, "x.gr/a".data⟩

/-! ## Lemmas: shape of `_tokenize` output -/

theorem dropWhile_length_le (p : Char → Bool) (l : LC) :
    (l.dropWhile p).length ≤ l.length := by
  induction l with
  | nil => simp [List.dropWhile]
  | cons c cs ih =>
      by_cases h : p c
      · simp [List.dropWhile, h]; omega
      · simp [List.dropWhile, h]

theorem isLowerAlnum_ne_space {c : Char} (h : isLowerAlnum c = true) :
    ¬ c = ' ' := by
  intro hc
  subst hc
  simp [isLowerAlnum, isLowerAlpha, isDigitC] at h

theorem isLowerAlnum_not_pySpace {c : Char} (h : isLowerAlnum c = true) :
    isPySpace c = false := by
  simp [isLowerAlnum, isLowerAlpha, isDigitC] at h
  simp [isPySpace]
  omega

theorem okChar_toNat {c : Char} (h : okChar c = true) :
    c.toNat = 32 ∨ (48 ≤ c.toNat ∧ c.toNat ≤ 57) ∨
    (97 ≤ c.toNat ∧ c.toNat ≤ 122) := by
  simp [okChar, isLowerAlnum, isLowerAlpha, isDigitC] at h
  rcases h with h | h
  · omega
  · subst h; left; rfl

theorem okChar_space_eq {c : Char} (hok : okChar c = true)
    (hsp : isPySpace c = true) : c = ' ' := by
  simp [okChar] at hok
  rcases hok with h | h
  · exact absurd hsp (by simp [isLowerAlnum_not_pySpace h])
  · exact h

theorem okChar_not_space_alnum {c : Char} (hok : okChar c = true)
    (hne : ¬ c = ' ') : isLowerAlnum c = true := by
  simp [okChar] at hok
  rcases hok with h | h
  · exact h
  · exact absurd h hne

theorem head?_dropWhile {p : Char → Bool} :
    ∀ {l : LC} {c : Char}, (l.dropWhile p).head? = some c → p c = false := by
  intro l
  induction l with
  | nil => intro c h; simp [List.dropWhile] at h
  | cons a as ih =>
      intro c h
      by_cases hp : p a
      · exact ih (by simpa [List.dropWhile, hp] using h)
      · have ha : a = c := by simpa [List.dropWhile, hp] using h
        subst ha
        simpa using hp

theorem dropWhile_eq_self_of_head {p : Char → Bool} {l : LC}
    (h : ∀ c, l.head? = some c → p c = false) : l.dropWhile p = l := by
  cases l with
  | nil => rfl
  | cons a as => simp [List.dropWhile, h a rfl]

theorem OkRun.tail {c : Char} {cs : LC} (h : OkRun (c :: cs)) : OkRun cs := by
  obtain ⟨hm, hch⟩ := h
  exact ⟨fun d hd => hm d (List.mem_cons_of_mem _ hd), hch.tail⟩

theorem OkRun.head_ok {c : Char} {cs : LC} (h : OkRun (c :: cs)) :
    okChar c = true :=
  h.1 c (List.mem_cons_self _ _)

/-- head of `cnaAux` on a list starting with an alphanumeric character. -/
theorem cnaAux_head_alnum (fuel : Nat) {c : Char} (cs : LC)
    (h : isLowerAlnum c = true) :
    (cnaAux fuel (c :: cs)).head? = some c := by
  cases fuel with
  | zero => rfl
  | succ n => simp [cnaAux, h]

theorem cnaAux_nil (fuel : Nat) : cnaAux fuel [] = [] := by
  cases fuel <;> rfl

/-- `cnaAux` output satisfies the run invariant. -/
theorem cnaAux_ok :
    ∀ fuel l, List.length l ≤ fuel → OkRun (cnaAux fuel l) := by
  intro fuel
  induction fuel with
  | zero =>
      intro l hl
      have h0 : l = [] := List.length_eq_zero.mp (Nat.le_zero.mp hl)
      subst h0
      refine ⟨?_, ?_⟩
      · intro c hc; rw [cnaAux_nil] at hc; simp at hc
      · rw [cnaAux_nil]; simp
  | succ n ih =>
      intro l hl
      cases l with
      | nil =>
          refine ⟨?_, ?_⟩
          · intro c hc; rw [cnaAux_nil] at hc; simp at hc
          · rw [cnaAux_nil]; simp
      | cons c cs =>
          by_cases hc : isLowerAlnum c
          · have hcs : OkRun (cnaAux n cs) := ih cs (by simp at hl; omega)
            have heq : cnaAux (n + 1) (c :: cs) = c :: cnaAux n cs := by
              simp [cnaAux, hc]
            rw [heq]
            refine ⟨?_, ?_⟩
            · intro d hd
              rcases List.mem_cons.mp hd with h | h
              · subst h; simp [okChar, hc]
              · exact hcs.1 d h
            · refine List.chain'_cons'.mpr ⟨?_, hcs.2⟩
              intro h _
              intro hand
              exact isLowerAlnum_ne_space hc hand.1
          · have hc' : isLowerAlnum c = false := by simpa using hc
            have hlen : (cs.dropWhile (fun d => !isLowerAlnum d)).length ≤ n := by
              have := dropWhile_length_le (fun d => !isLowerAlnum d) cs
              simp at hl; omega
            have hrest : OkRun (cnaAux n (cs.dropWhile (fun d => !isLowerAlnum d))) :=
              ih _ hlen
            have heq : cnaAux (n + 1) (c :: cs) =
                ' ' :: cnaAux n (cs.dropWhile (fun d => !isLowerAlnum d)) := by
              simp [cnaAux, hc']
            rw [heq]
            refine ⟨?_, ?_⟩
            · intro d hd
              rcases List.mem_cons.mp hd with h | h
              · subst h; simp [okChar]
              · exact hrest.1 d h
            · refine List.chain'_cons'.mpr ⟨?_, hrest.2⟩
              intro h hh
              intro hand
              cases hdw : (cs.dropWhile (fun d => !isLowerAlnum d)) with
              | nil =>
                  rw [hdw, cnaAux_nil] at hh
                  simp at hh
              | cons r rs =>
                  have hr0 : (cs.dropWhile (fun d => !isLowerAlnum d)).head? = some r := by
                    rw [hdw]; rfl
                  have hr : isLowerAlnum r = true := by
                    have := head?_dropWhile hr0
                    simpa using this
                  rw [hdw, cnaAux_head_alnum n rs hr] at hh
                  have hhr : r = h := by simpa using hh
                  subst hhr
                  exact isLowerAlnum_ne_space hr hand.2

/-- `collapseWS` is the identity on a valid run. -/
theorem cwsAux_id :
    ∀ fuel l, List.length l ≤ fuel → OkRun l → cwsAux fuel l = l := by
  intro fuel
  induction fuel with
  | zero => intro l _ _; rfl
  | succ n ih =>
      intro l hl hok
      cases l with
      | nil => rfl
      | cons c cs =>
          by_cases hsp : isPySpace c
          · have hc : c = ' ' := okChar_space_eq hok.head_ok hsp
            have hdrop : cs.dropWhile isPySpace = cs := by
              apply dropWhile_eq_self_of_head
              intro d hd
              cases cs with
              | nil => simp at hd
              | cons e es =>
                  have hde : e = d := by simpa using hd
                  subst hde
                  have hne : ¬ (c = ' ' ∧ e = ' ') :=
                    (List.chain'_cons.mp hok.2).1
                  have he' : ¬ e = ' ' := fun h => hne ⟨hc, h⟩
                  have heok : okChar e = true := hok.1 e (by simp)
                  by_cases hpe : isPySpace e
                  · exact absurd (okChar_space_eq heok hpe) he'
                  · simpa using hpe
            have heq : cwsAux (n + 1) (c :: cs) =
                ' ' :: cwsAux n (cs.dropWhile isPySpace) := by
              simp [cwsAux, hsp]
            rw [heq, hdrop, ih cs (by simp at hl; omega) hok.tail, hc]
          · have hsp' : isPySpace c = false := by simpa using hsp
            have heq : cwsAux (n + 1) (c :: cs) = c :: cwsAux n cs := by
              simp [cwsAux, hsp']
            rw [heq, ih cs (by simp at hl; omega) hok.tail]

/-- `collapseNA` is the identity on a valid run. -/
theorem cnaAux_id :
    ∀ fuel l, List.length l ≤ fuel → OkRun l → cnaAux fuel l = l := by
  intro fuel
  induction fuel with
  | zero => intro l _ _; rfl
  | succ n ih =>
      intro l hl hok
      cases l with
      | nil => rfl
      | cons c cs =>
          by_cases hc : isLowerAlnum c
          · have heq : cnaAux (n + 1) (c :: cs) = c :: cnaAux n cs := by
              simp [cnaAux, hc]
            rw [heq, ih cs (by simp at hl; omega) hok.tail]
          · have hc' : isLowerAlnum c = false := by simpa using hc
            have hcsp : c = ' ' := by
              have h0 := hok.head_ok
              simp [okChar, hc'] at h0
              exact h0
            have hdrop : cs.dropWhile (fun d => !isLowerAlnum d) = cs := by
              apply dropWhile_eq_self_of_head
              intro d hd
              cases cs with
              | nil => simp at hd
              | cons e es =>
                  have hde : e = d := by simpa using hd
                  subst hde
                  have hne : ¬ (c = ' ' ∧ e = ' ') :=
                    (List.chain'_cons.mp hok.2).1
                  have he' : ¬ e = ' ' := fun h => hne ⟨hcsp, h⟩
                  have heok : okChar e = true := hok.1 e (by simp)
                  simp [okChar_not_space_alnum heok he']
            have heq : cnaAux (n + 1) (c :: cs) =
                ' ' :: cnaAux n (cs.dropWhile (fun d => !isLowerAlnum d)) := by
              simp [cnaAux, hc']
            rw [heq, hdrop, ih cs (by simp at hl; omega) hok.tail, hcsp]

theorem OkRun.of_suffix {l₁ l₂ : LC} (h : l₁ <:+ l₂) (hok : OkRun l₂) :
    OkRun l₁ := by
  obtain ⟨t, rfl⟩ := h
  exact ⟨fun c hc => hok.1 c (List.mem_append_right t hc),
    hok.2.right_of_append⟩

theorem OkRun.of_reverse {l : LC} (hok : OkRun l) : OkRun l.reverse := by
  refine ⟨fun c hc => hok.1 c (by simpa using hc), ?_⟩
  rw [List.chain'_reverse]
  exact hok.2.imp (fun a b h hand => h ⟨hand.2, hand.1⟩)

/-- `pyStrip` preserves the run invariant and removes boundary spaces. -/
theorem pyStrip_shape {l : LC} (hok : OkRun l) : NormShape (pyStrip l) := by
  unfold pyStrip
  set u := l.dropWhile isPySpace with hu
  set v := u.reverse.dropWhile isPySpace with hv
  have hOku : OkRun u := hok.of_suffix (List.dropWhile_suffix _)
  have hOkv : OkRun v :=
    (hOku.of_reverse.of_suffix (List.dropWhile_suffix _))
  refine ⟨hOkv.of_reverse, ?_, ?_⟩
  · -- head of the result is the last of `v`
    rw [List.head?_reverse]
    by_cases hne : v = []
    · rw [hne]; simp
    · -- `v` is a suffix of `u.reverse`, so its last is `u.reverse`'s last,
      -- which is `u`'s head, which fails `isPySpace`.
      obtain ⟨t, ht⟩ := List.dropWhile_suffix (l := u.reverse) isPySpace
      rw [← hv] at ht
      have h1 : v.getLast? = u.reverse.getLast? := by
        rw [← ht]
        exact (List.getLast?_append_of_ne_nil t hne).symm
      rw [h1, List.getLast?_reverse]
      intro hsp
      cases hu2 : u.head? with
      | none => rw [hu2] at hsp; simp at hsp
      | some b =>
          rw [hu2] at hsp
          have hb : b = ' ' := by simpa using hsp
          have := head?_dropWhile (p := isPySpace) (l := l) (by rw [← hu]; exact hu2)
          rw [hb] at this
          simp [isPySpace] at this
  · rw [List.getLast?_reverse]
    intro hsp
    cases hv2 : v.head? with
    | none => rw [hv2] at hsp; simp at hsp
    | some b =>
        rw [hv2] at hsp
        have hb : b = ' ' := by simpa using hsp
        have := head?_dropWhile (p := isPySpace) (l := u.reverse) (by rw [← hv]; exact hv2)
        rw [hb] at this
        simp [isPySpace] at this

/-- `pyStrip` is the identity when there is no boundary space. -/
theorem pyStrip_id {l : LC} (hok : OkRun l) (hh : l.head? ≠ some ' ')
    (hg : l.getLast? ≠ some ' ') : pyStrip l = l := by
  unfold pyStrip
  have h1 : l.dropWhile isPySpace = l := by
    apply dropWhile_eq_self_of_head
    intro c hc
    have hcok : okChar c = true := by
      cases l with
      | nil => simp at hc
      | cons a as =>
          have : a = c := by simpa using hc
          subst this
          exact hok.head_ok
    by_cases hsp : isPySpace c
    · exact absurd (by rw [okChar_space_eq hcok hsp] at hc; exact hc) hh
    · simpa using hsp
  rw [h1]
  have h2 : l.reverse.dropWhile isPySpace = l.reverse := by
    apply dropWhile_eq_self_of_head
    intro c hc
    rw [List.head?_reverse] at hc
    have hcok : okChar c = true := by
      have : c ∈ l := by
        cases l with
        | nil => simp at hc
        | cons a as => exact List.mem_of_mem_getLast? hc
      exact hok.1 c this
    by_cases hsp : isPySpace c
    · exact absurd (by rw [okChar_space_eq hcok hsp] at hc; exact hc) hg
    · simpa using hsp
  rw [h2, List.reverse_reverse]

/-! ## Lemmas: the normalizer fixes its own output (C9) -/

theorem okChar_ne_amp {c : Char} (h : okChar c = true) : ¬ c.toNat = 38 := by
  rcases okChar_toNat h with h1 | h1 | h1 <;> omega

theorem okChar_ne_pct {c : Char} (h : okChar c = true) : ¬ c.toNat = 37 := by
  rcases okChar_toNat h with h1 | h1 | h1 <;> omega

theorem huAux_id :
    ∀ fuel l, (∀ c ∈ l, ¬ c.toNat = 38) → huAux fuel l = l := by
  intro fuel
  induction fuel with
  | zero => intro l _; rfl
  | succ n ih =>
      intro l hl
      cases l with
      | nil => rfl
      | cons c cs =>
          have hc : ¬ c.toNat = 38 := hl c (by simp)
          simp only [huAux, hc, if_false]
          rw [ih cs (fun d hd => hl d (by simp [hd]))]

theorem pdAux_id :
    ∀ fuel l, (∀ c ∈ l, ¬ c.toNat = 37) → pdAux fuel l = l := by
  intro fuel
  induction fuel with
  | zero => intro l _; rfl
  | succ n ih =>
      intro l hl
      cases l with
      | nil => rfl
      | cons c cs =>
          have hc : ¬ c.toNat = 37 := hl c (by simp)
          simp only [pdAux, hc, if_false]
          rw [ih cs (fun d hd => hl d (by simp [hd]))]

theorem unescapeDecode_id {l : LC} (hok : OkRun l) : unescapeDecode l = l := by
  unfold unescapeDecode htmlUnescape percentDecode
  rw [huAux_id _ _ (fun c hc => okChar_ne_amp (hok.1 c hc)),
      pdAux_id _ _ (fun c hc => okChar_ne_pct (hok.1 c hc))]

theorem okChar_ascii {c : Char} (h : okChar c = true) : isAsciiC c = true := by
  rcases okChar_toNat h with h1 | h1 | h1 <;> simp [isAsciiC] <;> omega

theorem okChar_lower {c : Char} (h : okChar c = true) : toLowerAscii c = c := by
  have hnot : isUpperAlpha c = false := by
    rcases okChar_toNat h with h1 | h1 | h1 <;> simp [isUpperAlpha] <;> omega
  simp [toLowerAscii, hnot]

theorem asciiLower_id {l : LC} (hok : OkRun l) (hh : l.head? ≠ some ' ')
    (hg : l.getLast? ≠ some ' ') : asciiLower l = l := by
  unfold asciiLower
  rw [unescapeDecode_id hok]
  have h1 : l.filter isAsciiC = l :=
    List.filter_eq_self.mpr (fun c hc => okChar_ascii (hok.1 c hc))
  rw [h1]
  have h2 : lowerL l = l := by
    unfold lowerL
    conv_rhs => rw [← List.map_id l]
    exact List.map_congr_left (fun c hc => okChar_lower (hok.1 c hc))
  rw [h2]
  exact pyStrip_id hok hh hg

/-- the shape invariant of `_tokenize` output. -/
theorem tokenize_shape (s : LC) : NormShape (tokenize s) := by
  unfold tokenize
  have h1 : OkRun (collapseNA (asciiLower s)) := cnaAux_ok _ _ (le_refl _)
  have h2 : collapseWS (collapseNA (asciiLower s)) = collapseNA (asciiLower s) :=
    cwsAux_id _ _ (le_refl _) h1
  rw [h2]
  exact pyStrip_shape h1

/-- the normalizer is the identity on output satisfying the shape
invariant. -/
theorem tokenize_fix {t : LC} (h : NormShape t) : tokenize t = t := by
  obtain ⟨hok, hh, hg⟩ := h
  unfold tokenize
  rw [asciiLower_id hok hh hg]
  rw [show collapseNA t = t from cnaAux_id _ _ (le_refl _) hok]
  rw [show collapseWS t = t from cwsAux_id _ _ (le_refl _) hok]
  exact pyStrip_id hok hh hg

/-! ## Lemmas: price-key insertion (C3) -/

theorem lookupKV_setKV_self {α β : Type} [DecidableEq α]
    (m : List (α × β)) (k : α) (v : β) : lookupKV (setKV m k v) k = some v := by
  induction m with
  | nil => simp [setKV, lookupKV]
  | cons p rest ih =>
      by_cases h : p.1 = k
      · simp [setKV, h, lookupKV]
      · simp [setKV, h, lookupKV, ih]

/-- stepping the expected-winner fold once. -/
theorem fmFrom_cons (acc : Option (PriceRec × ℚ)) (p : PriceRec × ℚ)
    (l : List (PriceRec × ℚ)) :
    fmFrom acc (p :: l) =
      fmFrom (match acc with
              | none => some p
              | some q => if p.2 > q.2 then some p else acc) l := rfl

/-- the stored record at `k` tracks the expected winner throughout the
fold. -/
theorem insertAll_tracks :
    ∀ (l : List (PriceRec × ℚ)) (m : List (PKey × PriceRec)) (k : PKey)
      (acc : Option (PriceRec × ℚ)),
      lookupKV m k = acc.map withScore →
      lookupKV (l.foldl (fun m p => insertPriceKey m k p.1 p.2) m) k =
        (fmFrom acc l).map withScore := by
  intro l
  induction l with
  | nil => intro m k acc h; simpa [fmFrom] using h
  | cons p rest ih =>
      intro m k acc h
      rw [List.foldl_cons, fmFrom_cons]
      apply ih
      cases acc with
      | none =>
          simp at h
          simp [insertPriceKey, h, lookupKV_setKV_self, withScore]
      | some q =>
          simp [withScore] at h
          by_cases hgt : p.2 > q.2
          · simp [insertPriceKey, h, Option.getD, hgt, lookupKV_setKV_self,
              withScore]
          · simp [insertPriceKey, h, Option.getD, hgt, withScore]

/-- the expected winner is the earliest maximum. -/
theorem fmFrom_cases :
    ∀ (l : List (PriceRec × ℚ)) (acc : Option (PriceRec × ℚ))
      (p : PriceRec × ℚ),
      fmFrom acc l = some p →
      (acc = some p ∧ ∀ q ∈ l, q.2 ≤ p.2) ∨
      (∃ l1 l2, l = l1 ++ p :: l2 ∧ (∀ q ∈ l1, q.2 < p.2) ∧
        (∀ a, acc = some a → a.2 < p.2) ∧ (∀ q ∈ l2, q.2 ≤ p.2)) := by
  intro l
  induction l with
  | nil =>
      intro acc p h
      simp [fmFrom] at h
      exact Or.inl ⟨by simp [h], by simp⟩
  | cons x rest ih =>
      intro acc p h
      rw [fmFrom_cons] at h
      cases acc with
      | none =>
          have h' : fmFrom (some x) rest = some p := h
          rcases ih _ _ h' with ⟨hacc, hle⟩ | ⟨l1, l2, hsplit, hl1, hacc, hl2⟩
          · have hxp : x = p := by simpa using hacc
            subst hxp
            refine Or.inr ⟨[], rest, by simp, by simp, by simp, hle⟩
          · refine Or.inr ⟨x :: l1, l2, by simp [hsplit], ?_, by simp, hl2⟩
            intro q hq
            rcases List.mem_cons.mp hq with h1 | h1
            · exact h1 ▸ hacc x rfl
            · exact hl1 q h1
      | some a =>
          have h' : fmFrom (if x.2 > a.2 then some x else some a) rest = some p := h
          by_cases hgt : x.2 > a.2
          · rw [if_pos hgt] at h'
            rcases ih _ _ h' with ⟨hacc, hle⟩ | ⟨l1, l2, hsplit, hl1, hacc, hl2⟩
            · have hxp : x = p := by simpa using hacc
              subst hxp
              refine Or.inr ⟨[], rest, by simp, by simp, ?_, hle⟩
              intro b hb
              cases hb
              exact hgt
            · refine Or.inr ⟨x :: l1, l2, by simp [hsplit], ?_, ?_, hl2⟩
              · intro q hq
                rcases List.mem_cons.mp hq with h1 | h1
                · exact h1 ▸ hacc x rfl
                · exact hl1 q h1
              · intro b hb
                cases hb
                exact lt_trans hgt (hacc x rfl)
          · rw [if_neg hgt] at h'
            rcases ih _ _ h' with ⟨hacc, hle⟩ | ⟨l1, l2, hsplit, hl1, hacc, hl2⟩
            · have hap : a = p := by simpa using hacc
              subst hap
              refine Or.inl ⟨rfl, ?_⟩
              intro q hq
              rcases List.mem_cons.mp hq with h1 | h1
              · exact h1 ▸ le_of_not_lt hgt
              · exact hle q h1
            · refine Or.inr ⟨x :: l1, l2, by simp [hsplit], ?_, hacc, hl2⟩
              intro q hq
              rcases List.mem_cons.mp hq with h1 | h1
              · exact h1 ▸ lt_of_le_of_lt (le_of_not_lt hgt) (hacc a rfl)
              · exact hl1 q h1

/-! ## Lemmas: deduplication (C7) -/

theorem dedupAux_sublist :
    ∀ (items : List ProdItem) (seen : List (LC × LC × LC)),
      (dedupAux seen items).Sublist (items.map popKeys) := by
  intro items
  induction items with
  | nil => intro seen; simp [dedupAux]
  | cons it rest ih =>
      intro seen
      by_cases h : seen.any (fun k => k = dedupKey it)
      · simp only [dedupAux, h, if_true]
        exact (ih seen).cons (popKeys it)
      · have h' : seen.any (fun k => k = dedupKey it) = false :=
          Bool.eq_false_iff.mpr h
        simp only [dedupAux, h', Bool.false_eq_true, if_false, List.map_cons]
        exact (ih (dedupKey it :: seen)).cons₂ (popKeys it)

theorem dedupAux_mem_iff :
    ∀ (items : List ProdItem) (seen : List (LC × LC × LC)) (x : PubItem),
      x ∈ dedupAux seen items ↔
        ∃ pre post it, items = pre ++ it :: post ∧ x = popKeys it ∧
          dedupKey it ∉ seen ∧ ∀ y ∈ pre, dedupKey y ≠ dedupKey it := by
  intro items
  induction items with
  | nil =>
      intro seen x
      constructor
      · intro h; simp [dedupAux] at h
      · rintro ⟨pre, post, it, hsplit, -⟩
        exact absurd hsplit (by simp)
  | cons it rest ih =>
      intro seen x
      by_cases h : seen.any (fun k => k = dedupKey it)
      · have hmem : dedupKey it ∈ seen := by
          rcases List.any_eq_true.mp h with ⟨k, hk, hk2⟩
          have : k = dedupKey it := by simpa using hk2
          exact this ▸ hk
        simp only [dedupAux, h, if_true]
        rw [ih seen x]
        constructor
        · rintro ⟨pre, post, it', hsplit, hx, hns, hpre⟩
          refine ⟨it :: pre, post, it', by simp [hsplit], hx, hns, ?_⟩
          intro y hy
          rcases List.mem_cons.mp hy with h1 | h1
          · subst h1
            intro hEq
            exact hns (hEq ▸ hmem)
          · exact hpre y h1
        · rintro ⟨pre, post, it', hsplit, hx, hns, hpre⟩
          cases pre with
          | nil =>
              simp at hsplit
              obtain ⟨h1, -⟩ := hsplit
              exact absurd (h1 ▸ hmem) hns
          | cons p pre' =>
              simp at hsplit
              obtain ⟨h1, h2⟩ := hsplit
              subst h1
              exact ⟨pre', post, it', h2, hx, hns,
                fun y hy => hpre y (List.mem_cons_of_mem _ hy)⟩
      · have h' : seen.any (fun k => k = dedupKey it) = false :=
          Bool.eq_false_iff.mpr h
        have hns0 : dedupKey it ∉ seen := by
          intro hmem
          exact h (List.any_eq_true.mpr ⟨dedupKey it, hmem, by simp⟩)
        simp only [dedupAux, h', Bool.false_eq_true, if_false]
        constructor
        · intro hx
          rcases List.mem_cons.mp hx with h1 | h1
          · exact ⟨[], rest, it, rfl, h1, hns0, by simp⟩
          · rw [ih (dedupKey it :: seen) x] at h1
            obtain ⟨pre, post, it', hsplit, hx', hns, hpre⟩ := h1
            have hne : dedupKey it' ≠ dedupKey it := by
              intro hEq
              exact hns (by simp [hEq])
            refine ⟨it :: pre, post, it', by simp [hsplit], hx', ?_, ?_⟩
            · intro hm; exact hns (by simp [hm])
            · intro y hy
              rcases List.mem_cons.mp hy with h2 | h2
              · subst h2; exact fun hEq => hne hEq.symm
              · exact hpre y h2
        · rintro ⟨pre, post, it', hsplit, hx, hns, hpre⟩
          cases pre with
          | nil =>
              simp at hsplit
              obtain ⟨h1, h2⟩ := hsplit
              rw [hx, ← h1]
              exact List.mem_cons_self _ _
          | cons p pre' =>
              simp at hsplit
              obtain ⟨h1, h2⟩ := hsplit
              subst h1
              apply List.mem_cons_of_mem
              rw [ih (dedupKey it :: seen) x]
              refine ⟨pre', post, it', h2, hx, ?_, ?_⟩
              · intro hm
                rcases List.mem_cons.mp hm with h3 | h3
                · exact hpre it (by simp) h3.symm
                · exact hns h3
              · intro y hy
                exact hpre y (List.mem_cons_of_mem _ hy)

/-! ## Lemmas: catalog search (C8) -/

theorem mem_insertDesc {x y : ℚ × Nat × CatalogCard}
    {l : List (ℚ × Nat × CatalogCard)} :
    x ∈ insertDesc y l ↔ x = y ∨ x ∈ l := by
  induction l with
  | nil => simp [insertDesc]
  | cons z zs ih =>
      by_cases h : entryGT z y
      · simp [insertDesc, h, ih]
        try tauto
      · have h' : entryGT z y = false := Bool.eq_false_iff.mpr h
        simp [insertDesc, h', Bool.false_eq_true]
        try tauto

theorem mem_sortDesc {x : ℚ × Nat × CatalogCard}
    {l : List (ℚ × Nat × CatalogCard)} :
    x ∈ sortDesc l ↔ x ∈ l := by
  induction l with
  | nil => simp [sortDesc]
  | cons z zs ih => simp [sortDesc, mem_insertDesc, ih]

/-- a card with no text match is hard-filtered out. -/
theorem scoreEntry_none_of_no_match {stoks : List LC} {snd : LC}
    {c : CatalogCard} (hne : stoks ≠ [])
    (h : ∀ t ∈ stoks, ∀ ct ∈ cardAllTokens c, isSubstr t ct = false) :
    scoreEntry stoks snd c = none := by
  have htmc : textMatchCountOf stoks c = 0 := by
    unfold textMatchCountOf
    rw [List.length_eq_zero, List.filter_eq_nil_iff]
    intro t ht
    simp only [Bool.not_eq_true, List.any_eq_false]
    intro ct hct
    simp [h t ht ct hct]
  have hempty : stoks.isEmpty = false := by
    cases stoks with
    | nil => exact absurd rfl hne
    | cons a as => rfl
  unfold scoreEntry
  simp [htmc, hempty]

/-- the card inside a produced score entry is the scored card itself. -/
theorem scoreEntry_some_card {stoks : List LC} {snd : LC} {c : CatalogCard}
    {e : ℚ × Nat × CatalogCard} (h : scoreEntry stoks snd c = some e) :
    e.2.2 = c := by
  unfold scoreEntry at h
  split at h
  · exact absurd h (by simp)
  · split at h
    · have h2 := Option.some.inj h
      rw [← h2]
    · exact absurd h (by simp)

/-- every search result arises from a score entry of some catalog card. -/
theorem mem_search_exists {cards : List CatalogCard} {q : LC} {limit : Nat}
    {c : CatalogCard} (hq : q ≠ []) (htok : queryTokens q ≠ [])
    (hmem : c ∈ searchLocalCards cards q limit) :
    ∃ a ∈ cards, ∃ e, scoreEntry (queryTokens q) (queryNumDigits q) a = some e ∧
      e.2.2 = c := by
  have h1 : q.isEmpty = false := by
    cases q with
    | nil => exact absurd rfl hq
    | cons a as => rfl
  have h2 : (queryTokens q).isEmpty = false := by
    cases hcase : queryTokens q with
    | nil => exact absurd hcase htok
    | cons a as => rfl
  unfold searchLocalCards at hmem
  rw [h1] at hmem
  simp only [Bool.false_eq_true, if_false, h2, Bool.false_and] at hmem
  rcases List.mem_map.mp hmem with ⟨e, he, hec⟩
  have he2 : e ∈ sortDesc (cards.filterMap
      (scoreEntry (queryTokens q) (queryNumDigits q))) :=
    List.take_subset _ _ he
  rw [mem_sortDesc] at he2
  rcases List.mem_filterMap.mp he2 with ⟨a, ha, hae⟩
  exact ⟨a, ha, e, hae, hec⟩

/-! ## Lemmas: price lookup (C1) -/

theorem firstHit_of_exists (m : List (PKey × PriceRec)) :
    ∀ ks : List PKey, (∃ k ∈ ks, (lookupKV m k).isSome) →
      ∃ k ∈ ks, ∃ r, lookupKV m k = some r ∧ firstHit m ks = some r := by
  intro ks
  induction ks with
  | nil => rintro ⟨k, hk, -⟩; simp at hk
  | cons k rest ih =>
      rintro ⟨k', hk', hsome⟩
      cases hk : lookupKV m k with
      | some v =>
          exact ⟨k, by simp, v, hk, by simp [firstHit, hk]⟩
      | none =>
          have hmem : k' ∈ rest := by
            rcases List.mem_cons.mp hk' with h | h
            · subst h; rw [hk] at hsome; simp at hsome
            · exact h
          obtain ⟨k2, hk2, r, hr, hfh⟩ := ih ⟨k', hmem, hsome⟩
          exact ⟨k2, List.mem_cons_of_mem _ hk2, r, hr, by simp [firstHit, hk, hfh]⟩

theorem firstHit_none (m : List (PKey × PriceRec)) :
    ∀ ks : List PKey, (∀ k ∈ ks, lookupKV m k = none) →
      firstHit m ks = none := by
  intro ks
  induction ks with
  | nil => intro _; rfl
  | cons k rest ih =>
      intro h
      have hk : lookupKV m k = none := h k (by simp)
      simp [firstHit, hk, ih (fun k2 hk2 => h k2 (List.mem_cons_of_mem _ hk2))]

theorem mem_exactKeys {nameN rawN setN numN nm nn : LC}
    (h1 : nm ∈ [nameN, rawN])
    (h2 : nn ∈ [numN, digitsOnly numN]) (h3 : nn ≠ []) :
    (nm, setN, nn) ∈ exactKeys nameN rawN setN numN := by
  unfold exactKeys
  rw [List.mem_flatten]
  refine ⟨_, List.mem_map.mpr ⟨nm, h1, rfl⟩, ?_⟩
  exact List.mem_map.mpr ⟨nn, List.mem_filter.mpr ⟨h2, by simpa using h3⟩, rfl⟩

theorem exactKeys_mem_inv {nameN rawN setN numN : LC} {k : PKey}
    (h : k ∈ exactKeys nameN rawN setN numN) :
    ∃ nm ∈ [nameN, rawN], ∃ nn ∈ [numN, digitsOnly numN],
      nn ≠ [] ∧ k = (nm, setN, nn) := by
  unfold exactKeys at h
  rw [List.mem_flatten] at h
  obtain ⟨l, hl, hk⟩ := h
  obtain ⟨nm, hnm, rfl⟩ := List.mem_map.mp hl
  obtain ⟨nn, hfil, rfl⟩ := List.mem_map.mp hk
  obtain ⟨hnn, hne⟩ := List.mem_filter.mp hfil
  exact ⟨nm, hnm, nn, hnn, by simpa using hne, rfl⟩

theorem bestFuzzy_aux_lt (setN : LC) (θ : ℚ) :
    ∀ (cands : List (LC × PriceRec)) (acc : Option PriceRec × ℚ),
      (∀ p ∈ cands, setSimilarity setN p.1 < θ) → acc.2 < θ →
      (cands.foldl (fun acc p =>
        let score := setSimilarity setN p.1
        if score > acc.2 then (some p.2, score) else acc) acc).2 < θ := by
  intro cands
  induction cands with
  | nil => intro acc _ h; simpa using h
  | cons p rest ih =>
      intro acc hall hacc
      rw [List.foldl_cons]
      apply ih _ (fun q hq => hall q (List.mem_cons_of_mem _ hq))
      by_cases hgt : setSimilarity setN p.1 > acc.2
      · simp only [hgt, if_pos]
        exact hall p (by simp)
      · simp only [if_neg hgt]
        exact hacc

theorem bestFuzzy_lt {setN : LC} {θ : ℚ} {cands : List (LC × PriceRec)}
    (hall : ∀ p ∈ cands, setSimilarity setN p.1 < θ) (h0 : (0 : ℚ) < θ) :
    (bestFuzzy setN cands).2 < θ :=
  bestFuzzy_aux_lt setN θ cands (none, 0) hall h0

/-! ## Claim theorems -/

/-- Claim C9: text normalization is idempotent — applying `_tokenize`
(decode, ASCII-fold, lowercase, collapse non-alphanumeric runs, trim) to
its own output returns the same key, for every input string. -/
theorem normalize_text_idempotent (s : LC) :
    tokenize (tokenize s) = tokenize s :=
  tokenize_fix (tokenize_shape s)

/-- Claim C5, counterexample: "pokemon go battle" contains the substring
"pokemon go", yet `_normalize_set` does not map it to the key "go" — the
normalizer has no short-circuiting alias, only generic word stripping. -/
theorem normalize_set_pokemon_go_counterexample :
    isSubstr "pokemon go".data "pokemon go battle".data = true ∧
    normalizeSet "pokemon go battle".data ≠ "go".data := by
  exact ⟨by decide, by decide⟩

/-- Claim C5, amended: there is no "pokemon go" short-circuit in
`_normalize_set`; the exact set name "pokemon go" (in any case) maps to
"go" because the generic pipeline strips the word "pokemon", while
other strings containing "pokemon go" keep their remaining tokens. -/
theorem normalize_set_pokemon_go_amended :
    normalizeSet "pokemon go".data = "go".data ∧
    normalizeSet "Pokemon GO".data = "go".data ∧
    normalizeSet "pokemon go battle".data = "go battle".data := by
  exact ⟨by decide, by decide, by decide⟩

/-- Claim C4, counterexample: `set_similarity("base set", "base")` does
NOT exceed the 0.72 threshold — it equals 17/30 = 0.5666…, so this
fallback match is rejected, contrary to the claim. -/
theorem set_similarity_base_counterexample :
    ¬ setSimilarity "base set".data "base".data > fuzzyThreshold := by
  with_unfolding_all decide

/-- Claim C4, amended: both scores fall strictly below the 0.72
acceptance threshold — `set_similarity("base set", "base") = 17/30`
(0.567, rejected) and `set_similarity("base set", "jungle") = 2/35`
(0.057, rejected). -/
theorem set_similarity_base_amended :
    setSimilarity "base set".data "base".data = 17 / 30 ∧
    setSimilarity "base set".data "base".data < fuzzyThreshold ∧
    setSimilarity "base set".data "jungle".data = 2 / 35 ∧
    setSimilarity "base set".data "jungle".data < fuzzyThreshold := by
  refine ⟨?_, ?_, ?_, ?_⟩ <;> with_unfolding_all decide

/-- Claim C2: row A (non-variant, market only) scores 1+2 = 3, row B
(variant-tagged, psa9+psa10) scores (2+3)+0 = 5; both rows share the
canonical key (pikachu, base, 58), and after loading — in either order —
the stored record at that key is B's (psa9 = 5, psa10 = 8). -/
theorem quality_preference_row_b_wins :
    rowQualityScore "Pikachu".data rowA = 3 ∧
    rowQualityScore "Pikachu [Reverse Holo]".data rowB = 5 ∧
    nameNorm rowA.cardName = nameNorm rowB.cardName ∧
    lookupKV (loadRows "EUR".data [rowA, rowB]).priceMap
      ("pikachu".data, "base".data, "58".data) = some recBWin ∧
    lookupKV (loadRows "EUR".data [rowB, rowA]).priceMap
      ("pikachu".data, "base".data, "58".data) = some recBWin ∧
    getPriceOverride (loadRows "EUR".data [rowA, rowB])
      "Pikachu".data "Base Set".data "58/102".data = some recBWin := by
  refine ⟨?_, ?_, ?_, ?_, ?_, ?_⟩ <;> with_unfolding_all decide

/-- Claim C10: whenever any of set id, rarity or the excluded card id is
missing (None) or empty, the related-cards lookup returns the empty list
without consulting the catalog or the sampler. -/
theorem related_cards_empty_on_falsy_arg
    (sampler : List CatalogCard → Nat → List CatalogCard)
    (cards : List CatalogCard) (set_id rarity cid : Option LC) (count : Nat)
    (h : truthyOpt set_id = false ∨ truthyOpt rarity = false ∨
         truthyOpt cid = false) :
    getLocalRelatedCards sampler cards set_id rarity cid count = [] := by
  unfold getLocalRelatedCards
  rcases h with h | h | h <;> simp [h]

/-- witness for the related-cards early return: a `None` set id against a
non-empty catalog yields the empty list even with a sampler that would
return everything. -/
theorem related_cards_empty_on_falsy_arg_witness :
    getLocalRelatedCards (fun l _ => l) [cardChar] none
      (some "Rare Holo".data) (some "base1-9".data) 5 = [] :=
  related_cards_empty_on_falsy_arg (fun l _ => l) [cardChar] none
    (some "Rare Holo".data) (some "base1-9".data) 5 (Or.inl (by decide))

/-- Claim C3: `_insert_price_key` replaces the stored record only when
the new score strictly beats the stored `_score` (the map is unchanged
on an equal or lower score), so across any insertion sequence at one key
the stored record is the earliest row attaining the maximum score. -/
theorem insert_price_key_invariant :
    (∀ (m : List (PKey × PriceRec)) (k : PKey) (obj : PriceRec) (score : ℚ)
       (r : PriceRec), lookupKV m k = some r →
       score ≤ r.scoreField.getD (-1) →
       insertPriceKey m k obj score = m) ∧
    (∀ (m : List (PKey × PriceRec)) (k : PKey) (obj : PriceRec) (score : ℚ),
       (lookupKV m k = none ∨
        ∃ r, lookupKV m k = some r ∧ score > r.scoreField.getD (-1)) →
       lookupKV (insertPriceKey m k obj score) k =
         some { obj with scoreField := some score }) ∧
    (∀ (k : PKey) (pairs : List (PriceRec × ℚ)),
       lookupKV (insertAll k pairs) k = (firstMaxScore pairs).map withScore) ∧
    (∀ (pairs : List (PriceRec × ℚ)) (p : PriceRec × ℚ),
       firstMaxScore pairs = some p →
       ∃ l1 l2, pairs = l1 ++ p :: l2 ∧ (∀ q ∈ l1, q.2 < p.2) ∧
         (∀ q ∈ l2, q.2 ≤ p.2)) := by
  refine ⟨?_, ?_, ?_, ?_⟩
  · intro m k obj score r hr hle
    unfold insertPriceKey
    rw [hr]
    simp only [if_neg (not_lt.mpr hle)]
  · intro m k obj score h
    unfold insertPriceKey
    rcases h with h | ⟨r, hr, hgt⟩
    · rw [h]; exact lookupKV_setKV_self m k _
    · rw [hr]
      simp only [if_pos hgt]
      exact lookupKV_setKV_self m k _
  · intro k pairs
    exact insertAll_tracks pairs [] k none (by simp [lookupKV])
  · intro pairs p h
    rcases fmFrom_cases pairs none p h with ⟨hacc, _⟩ | ⟨l1, l2, hs, h1, _, h2⟩
    · simp at hacc
    · exact ⟨l1, l2, hs, h1, h2⟩

/-- Claim C1: if the exact price map holds an entry at some combination
of name key (variant-stripped or raw) and non-empty number key
(normalized or digits-only) together with the normalized set key, the
lookup returns such an entry's record; otherwise, when every fuzzy
candidate sharing a (name, number) pair scores strictly below 0.72, the
lookup returns nothing — a low-confidence candidate is never returned. -/
theorem get_price_override_cases (st : PriceState)
    (name set_name number : LC) :
    ((∃ nm ∈ [nameNorm name, nameNormRaw name],
      ∃ nn ∈ [normalizeNumber number, digitsOnly (normalizeNumber number)],
        nn ≠ [] ∧
        (lookupKV st.priceMap (nm, normalizeSet set_name, nn)).isSome) →
      ∃ nm ∈ [nameNorm name, nameNormRaw name],
      ∃ nn ∈ [normalizeNumber number, digitsOnly (normalizeNumber number)],
        nn ≠ [] ∧
        ∃ r, lookupKV st.priceMap (nm, normalizeSet set_name, nn) = some r ∧
          getPriceOverride st name set_name number = some r) ∧
    ((∀ k ∈ exactKeys (nameNorm name) (nameNormRaw name)
         (normalizeSet set_name) (normalizeNumber number),
        lookupKV st.priceMap k = none) →
     (∀ p ∈ fuzzyCandidates st (nameNorm name) (nameNormRaw name)
         (normalizeNumber number),
        setSimilarity (normalizeSet set_name) p.1 < fuzzyThreshold) →
      getPriceOverride st name set_name number = none) := by
  constructor
  · rintro ⟨nm, hnm, nn, hnn, hne, hsome⟩
    have hex : ∃ k ∈ exactKeys (nameNorm name) (nameNormRaw name)
        (normalizeSet set_name) (normalizeNumber number),
        (lookupKV st.priceMap k).isSome :=
      ⟨(nm, normalizeSet set_name, nn), mem_exactKeys hnm hnn hne, hsome⟩
    obtain ⟨k, hk, r, hr, hfh⟩ := firstHit_of_exists st.priceMap _ hex
    obtain ⟨nm', hnm', nn', hnn', hne', rfl⟩ := exactKeys_mem_inv hk
    refine ⟨nm', hnm', nn', hnn', hne', r, hr, ?_⟩
    simp only [getPriceOverride]
    rw [hfh]
  · intro hexact hfuzzy
    have h1 : firstHit st.priceMap (exactKeys (nameNorm name)
        (nameNormRaw name) (normalizeSet set_name)
        (normalizeNumber number)) = none :=
      firstHit_none st.priceMap _ hexact
    have h2 : (bestFuzzy (normalizeSet set_name)
        (fuzzyCandidates st (nameNorm name) (nameNormRaw name)
          (normalizeNumber number))).2 < fuzzyThreshold :=
      bestFuzzy_lt hfuzzy (by norm_num [fuzzyThreshold])
    simp only [getPriceOverride]
    rw [h1]
    cases hb : (bestFuzzy (normalizeSet set_name)
        (fuzzyCandidates st (nameNorm name) (nameNormRaw name)
          (normalizeNumber number))).1 with
    | none => rfl
    | some b => exact if_neg (not_le.mpr h2)

/-- witness for the lookup contract: on a state holding the single exact
entry ((a, b, 1) ↦ recExact), looking up ("A", "B", "1") returns that
entry; on the empty state (no exact entries, no fuzzy candidates) the
lookup returns nothing. -/
theorem get_price_override_cases_witness :
    (∃ nm ∈ [nameNorm "A".data, nameNormRaw "A".data],
      ∃ nn ∈ [normalizeNumber "1".data, digitsOnly (normalizeNumber "1".data)],
        nn ≠ [] ∧
        ∃ r, lookupKV stExact.priceMap (nm, normalizeSet "B".data, nn) = some r ∧
          getPriceOverride stExact "A".data "B".data "1".data = some r) ∧
    getPriceOverride emptyPriceState "A".data "B".data "1".data = none :=
  ⟨(get_price_override_cases stExact "A".data "B".data "1".data).1
      (by decide),
   (get_price_override_cases emptyPriceState "A".data "B".data "1".data).2
      (by decide) (by decide)⟩

/-- Claim C8: when the digit-stripped tokenized query text is non-empty,
every card none of whose tokens (name or set) contains any query text
token as a substring is excluded from the results; when no catalog card
matches any text token, the result is empty regardless of digits in the
query. -/
theorem search_hard_filter (cards : List CatalogCard) (q : LC) (limit : Nat)
    (htok : queryTokens q ≠ []) :
    (∀ c : CatalogCard,
      (∀ t ∈ queryTokens q, ∀ ct ∈ cardAllTokens c, isSubstr t ct = false) →
      c ∉ searchLocalCards cards q limit) ∧
    ((∀ c ∈ cards, ∀ t ∈ queryTokens q, ∀ ct ∈ cardAllTokens c,
        isSubstr t ct = false) →
      searchLocalCards cards q limit = []) := by
  have hq : q ≠ [] := by
    intro h
    subst h
    exact htok rfl
  constructor
  · intro c hno hmem
    rcases mem_search_exists hq htok hmem with ⟨a, ha, e, hae, hec⟩
    have hac : a = c := by rw [← hec, scoreEntry_some_card hae]
    subst hac
    rw [scoreEntry_none_of_no_match htok hno] at hae
    cases hae
  · intro hall
    have h1 : q.isEmpty = false := by
      cases q with
      | nil => exact absurd rfl hq
      | cons a as => rfl
    have h2 : (queryTokens q).isEmpty = false := by
      cases hcase : queryTokens q with
      | nil => exact absurd hcase htok
      | cons a as => rfl
    unfold searchLocalCards
    rw [h1]
    simp only [Bool.false_eq_true, if_false, h2, Bool.false_and]
    have hfm : cards.filterMap
        (scoreEntry (queryTokens q) (queryNumDigits q)) = [] := by
      rw [List.filterMap_eq_nil_iff]
      intro a ha
      exact scoreEntry_none_of_no_match htok (hall a ha)
    rw [hfm]
    simp [sortDesc]

/-- witness for the hard filter: the query "pikachu 4" has the text
token `pikachu`, which substring-matches nothing on a charizard card, so
that card is excluded and the one-card catalog yields no results despite
the matching digit 4. -/
theorem search_hard_filter_witness :
    cardChar ∉ searchLocalCards [cardChar] "pikachu 4".data 12 ∧
    searchLocalCards [cardChar] "pikachu 4".data 12 = [] :=
  ⟨(search_hard_filter [cardChar] "pikachu 4".data 12 (by decide)).1 cardChar
      (by decide),
   (search_hard_filter [cardChar] "pikachu 4".data 12 (by decide)).2
      (by decide)⟩

/-- Claim C7: deduplication keeps the input order (the output is a
subsequence of the input's public projections); a row survives exactly
when it is the first occurrence of its (title key, URL key, price
string) triple; two rows equal in title and URL keys but with different
price strings both survive; rows identical in all three components
collapse to the first-seen one. -/
theorem deduplicate_spec (items : List ProdItem) :
    (deduplicate items).Sublist (items.map popKeys) ∧
    (∀ x, x ∈ deduplicate items ↔
      ∃ pre post it, items = pre ++ it :: post ∧ x = popKeys it ∧
        ∀ y ∈ pre, dedupKey y ≠ dedupKey it) ∧
    (∀ a b : ProdItem, a.kTitle = b.kTitle → a.kUrl = b.kUrl →
      a.price ≠ b.price → deduplicate [a, b] = [popKeys a, popKeys b]) ∧
    (∀ a b : ProdItem, dedupKey a = dedupKey b →
      deduplicate [a, b] = [popKeys a]) := by
  refine ⟨dedupAux_sublist items [], ?_, ?_, ?_⟩
  · intro x
    rw [deduplicate, dedupAux_mem_iff items [] x]
    constructor
    · rintro ⟨pre, post, it, h1, h2, -, h4⟩
      exact ⟨pre, post, it, h1, h2, h4⟩
    · rintro ⟨pre, post, it, h1, h2, h4⟩
      exact ⟨pre, post, it, h1, h2, by simp, h4⟩
  · intro a b hT hU hP
    have hk : ¬ dedupKey a = dedupKey b := by
      simp [dedupKey, Prod.ext_iff, hT, hU]
      intro h
      exact absurd h hP
    simp [deduplicate, dedupAux, hk]
  · intro a b hk
    simp [deduplicate, dedupAux, hk]

/-- witness for deduplication: two concrete rows sharing title and URL
keys but with prices €10,00 and €12,00 both survive, and an exact
duplicate of the first row collapses. -/
theorem deduplicate_spec_witness :
    deduplicate [itemP1, itemP2] = [popKeys itemP1, popKeys itemP2] ∧
    deduplicate [itemP1, itemP1] = [popKeys itemP1] :=
  ⟨(deduplicate_spec [itemP1, itemP2]).2.2.1 itemP1 itemP2 rfl rfl (by decide),
   (deduplicate_spec [itemP1, itemP1]).2.2.2 itemP1 itemP1 rfl⟩

/-- Claim C6: `get_price_override_ex` returns exactly
`get_price_override`'s value; on a hit the reason is `found`, and on a
miss the reason is `unmatched_set` precisely when some (name variant,
non-empty number variant) pair is present in the `(name, number)`
presence index, `absent_in_csv` otherwise. -/
theorem get_price_override_ex_reasons (st : PriceState)
    (name set_name number : LC) :
    (getPriceOverrideEx st name set_name number).1 =
      getPriceOverride st name set_name number ∧
    (∀ v, getPriceOverride st name set_name number = some v →
      (getPriceOverrideEx st name set_name number).2 = Reason.found) ∧
    (getPriceOverride st name set_name number = none →
      ((getPriceOverrideEx st name set_name number).2 = Reason.unmatchedSet ↔
        existsAnyPair st name number = true) ∧
      ((getPriceOverrideEx st name set_name number).2 = Reason.absentInCsv ↔
        ¬ existsAnyPair st name number = true)) := by
  refine ⟨?_, ?_, ?_⟩
  · unfold getPriceOverrideEx
    cases h : getPriceOverride st name set_name number with
    | some v => rfl
    | none =>
        by_cases hp : existsAnyPair st name number <;> simp [hp]
  · intro v hv
    unfold getPriceOverrideEx
    rw [hv]
  · intro hm
    unfold getPriceOverrideEx
    rw [hm]
    by_cases hp : existsAnyPair st name number <;> simp [hp]

/-- witness for the lookup-with-reason contract: on a state whose index
knows the pair (a, 1) but whose map has no entry, the miss reason is
`unmatched_set`; on the empty state it is `absent_in_csv`. -/
theorem get_price_override_ex_reasons_witness :
    ((getPriceOverrideEx stIndexOnly "A".data "B".data "1".data).2 =
        Reason.unmatchedSet ↔ existsAnyPair stIndexOnly "A".data "1".data = true) ∧
    ((getPriceOverrideEx emptyPriceState "A".data "B".data "1".data).2 =
        Reason.absentInCsv ↔
      ¬ existsAnyPair emptyPriceState "A".data "1".data = true) :=
  ⟨((get_price_override_ex_reasons stIndexOnly "A".data "B".data "1".data).2.2
      (by with_unfolding_all decide)).1,
   ((get_price_override_ex_reasons emptyPriceState "A".data "B".data "1".data).2.2
      (by with_unfolding_all decide)).2⟩

/-- witness for the insertion invariant: a stored record with score 5
survives an equal-score and a lower-score insertion, loses to a
6-scoring insertion, and the fold over four scored rows keeps the
earliest maximum. -/
theorem insert_price_key_invariant_witness :
    (insertPriceKey [(("a".data, "b".data, "1".data), recBWin)]
        ("a".data, "b".data, "1".data) recExact 5 =
      [(("a".data, "b".data, "1".data), recBWin)]) ∧
    (lookupKV (insertPriceKey [(("a".data, "b".data, "1".data), recBWin)]
        ("a".data, "b".data, "1".data) recExact 6)
        ("a".data, "b".data, "1".data) =
      some { recExact with scoreField := some 6 }) ∧
    (lookupKV (insertAll ("a".data, "b".data, "1".data)
        [(recExact, 3), (recBWin, 5), (recExact, 5)])
        ("a".data, "b".data, "1".data) = some { recBWin with scoreField := some 5 }) :=
  ⟨insert_price_key_invariant.1 _ _ recExact 5 recBWin rfl
      (by with_unfolding_all decide),
   insert_price_key_invariant.2.1 _ _ recExact 6
      (Or.inr ⟨recBWin, rfl, by with_unfolding_all decide⟩),
   by
     rw [insert_price_key_invariant.2.2.1]
     with_unfolding_all decide⟩

end Tracker

